import Mathlib

/-
  Shallow embedding of src/utils/dataset.py (SAM-Raman-Diagnostics).

  Modelling conventions:
  * numpy arrays and Python lists are Lean lists; np.load is modelled by
    passing the decoded array contents directly, so a "path list" in the
    configuration becomes the list of the arrays the paths decode to.
  * raw label values are an arbitrary linearly ordered type L (np.unique
    sorts them ascending); spectral samples are an arbitrary type A.
  * Python dict indexing (label_map[l], inverse_map[idx]) raises KeyError on
    a missing key; this is modelled with Option, none standing for the error.
  * np.random.seed(seed) fixes the stream of draws that later calls of
    np.random.permutation return.  The stream is modelled as a function
    oracle : Nat -> Nat -> List Nat taking the index of the call and the
    size n of np.arange(n) being permuted; a valid stream returns a
    permutation of List.range n for every call.
  * torch.tensor dtype conversion and unsqueeze(0) only reshape a sample;
    they are identity on our abstract samples.
  * sklearn.model_selection.train_test_split is external library code; the
    embedding takes it as an explicit function parameter
    (data, labels) -> (train_data, validation_data, train_labels,
    validation_labels), since none of the verified claims depend on what it
    returns.
-/

/-- Python list indexing `xs[i]`: negative indices count from the end and an
index outside `[-len, len)` raises IndexError (modelled by none). -/
def pyGet {A : Type} (xs : List A) (i : Int) : Option A :=
  let j : Int := if i < 0 then (xs.length : Int) + i else i
  if 0 ≤ j ∧ j < (xs.length : Int) then xs.get? j.toNat else none

/-- Python `zip` over three lists: truncates to the shortest list. -/
def pyZip3 {A B C : Type} : List A → List B → List C → List (A × B × C)
  | a :: as, b :: bs, c :: cs => (a, b, c) :: pyZip3 as bs cs
  | _, _, _ => []

/-- Python `zip` over four lists: truncates to the shortest list. -/
def pyZip4 {A B C D : Type} : List A → List B → List C → List D → List (A × B × C × D)
  | a :: as, b :: bs, c :: cs, d :: ds => (a, b, c, d) :: pyZip4 as bs cs ds
  | _, _, _, _ => []

/-- The `SAMRamanDataset` wrapper: parallel lists of spectral samples and
integer label codes (class SAMRamanDataset, lines 8-24). -/
structure SAMRamanDataset (A B : Type) where
  spectral_data : List A
  labels : List B

/-- The `__len__` method: `len(self.labels)`. -/
def SAMRamanDataset.len {A B : Type} (ds : SAMRamanDataset A B) : Nat :=
  ds.labels.length

/-- The `__getitem__` method: Python-indexes both lists; the tensor
conversions are identity on abstract samples and labels. -/
def SAMRamanDataset.getitem {A B : Type} (ds : SAMRamanDataset A B) (idx : Int) :
    Option (A × B) :=
  match pyGet ds.spectral_data idx, pyGet ds.labels idx with
  | some d, some l => some (d, l)
  | _, _ => none

/-- The `np.unique` call of `_get_label_mapping` (line 70): the distinct
values in ascending order. -/
def npUnique {L : Type} [LinearOrder L] (xs : List L) : List L :=
  (List.insertionSort (· ≤ ·) xs).dedup

/-- The `enumerate` comprehension `{l: idx for idx, l in enumerate(...)}`
starting at index i; the dict is an association list (keys are distinct, so
no overwriting occurs). -/
def enumMap {L : Type} (i : Nat) : List L → List (L × Nat)
  | [] => []
  | l :: rest => (l, i) :: enumMap (i + 1) rest

/-- The `_get_label_mapping` method (lines 58-72) applied to the
concatenation of the loaded label arrays. -/
def getLabelMapping {L : Type} [LinearOrder L] (labels : List L) : List (L × Nat) :=
  enumMap 0 (npUnique labels)

/-- Python dict indexing `label_map[l]`. -/
def labelMapLookup {L : Type} [DecidableEq L] (m : List (L × Nat)) (l : L) : Option Nat :=
  (m.find? (fun q => decide (q.1 = l))).map Prod.snd

/-- The inverse map `{idx: l for l, idx in self.label_map.items()}` (line 54). -/
def getInverseMap {L : Type} (m : List (L × Nat)) : List (Nat × L) :=
  m.map (fun q => (q.2, q.1))

/-- The `_get_original_label` method (lines 170-171): dict indexing into the
inverse map, KeyError modelled by none. -/
def getOriginalLabel {L : Type} (inv : List (Nat × L)) (c : Nat) : Option L :=
  (inv.find? (fun q => decide (q.1 = c))).map Prod.snd

/-- The three partitions built by `_get_splits`: each is a pair of parallel
sequences, `data` and `labels` (the defaultdict(list) triple of lines 75-79). -/
structure Splits (A : Type) where
  trainData : List A
  trainLabels : List Nat
  valData : List A
  valLabels : List Nat
  testData : List A
  testLabels : List Nat

def emptySplits {A : Type} : Splits A :=
  ⟨[], [], [], [], [], []⟩

def appendSplits {A : Type} (s t : Splits A) : Splits A :=
  ⟨s.trainData ++ t.trainData, s.trainLabels ++ t.trainLabels,
   s.valData ++ t.valData, s.valLabels ++ t.valLabels,
   s.testData ++ t.testData, s.testLabels ++ t.testLabels⟩

/-- Line 126, `int(train_split * num_patients)` with train_split = 0.7.  For
the sizes arising in the verified claims (in particular n = 10, where the
IEEE double product 0.7 * 10 is exactly 7.0) the float truncation coincides
with the exact rational floor modelled here. -/
def trainSplitEnd (n : Nat) : Nat := 7 * n / 10

/-- Line 127, `int((train_split + validation_split) * num_patients)`.  The
double sum 0.7 + 0.15 rounds to the double nearest 0.85 and 0.85 * 10 is
exactly 8.5, so at n = 10 the float truncation equals the rational floor
17 * n / 20 modelled here. -/
def validationSplitEnd (n : Nat) : Nat := 17 * n / 20

/-- The slice `patient_idxs[:train_split_end]` (line 129). -/
def trainIdxs (perm : List Nat) (n : Nat) : List Nat :=
  perm.take (trainSplitEnd n)

/-- The slice `patient_idxs[train_split_end:validation_split_end]` (line 135). -/
def valIdxs (perm : List Nat) (n : Nat) : List Nat :=
  (perm.drop (trainSplitEnd n)).take (validationSplitEnd n - trainSplitEnd n)

/-- The slice `patient_idxs[validation_split_end:]` (line 141). -/
def testIdxs (perm : List Nat) (n : Nat) : List Nat :=
  perm.drop (validationSplitEnd n)

/-- The slice `label_spectra[i * p_int : i * p_int + p_int]` (lines 131, 137, 143). -/
def blockSlice {A : Type} (xs : List A) (p i : Nat) : List A :=
  (xs.drop (i * p)).take p

/-- The data rows appended for one range of patient indices: each index i
contributes the block of p samples starting at offset i * p. -/
def partData {A : Type} (xs : List A) (p : Nat) (idxs : List Nat) : List A :=
  idxs.flatMap (fun i => blockSlice xs p i)

/-- The label codes appended for one range of patient indices:
`[self.label_map[l]] * p_int` per index (lines 133, 139, 145). -/
def partLabels (code p : Nat) (idxs : List Nat) : List Nat :=
  idxs.flatMap (fun _ => List.replicate p code)

/-- The body of the per-label loop of generation mode (lines 116-145) for one
(source, label) group, given the filtered spectra, the code of the label, the
patient interval and the drawn permutation. -/
def processLabelGroup {A : Type} (filtered : List A) (code p : Nat)
    (perm : List Nat) : Splits A :=
  let n := filtered.length / p
  ⟨partData filtered p (trainIdxs perm n), partLabels code p (trainIdxs perm n),
   partData filtered p (valIdxs perm n), partLabels code p (valIdxs perm n),
   partData filtered p (testIdxs perm n), partLabels code p (testIdxs perm n)⟩

/-- The boolean-mask filtering `spectra[labels == l]` (line 117); numpy
requires the two arrays to have equal length, which the zip models under
that assumption. -/
def maskFilter {A L : Type} [DecidableEq L] (spectra : List A) (labels : List L)
    (l : L) : List A :=
  ((spectra.zip labels).filter (fun q => decide (q.2 = l))).map Prod.fst

/-- The loop `for l in np.unique(labels)` of generation mode, iterating over
the given tail us of the unique-label list; k is the index of the next
np.random.permutation call.  A missing key in label_map (KeyError) yields
none. -/
def processLabels {A L : Type} [DecidableEq L] (m : List (L × Nat))
    (oracle : Nat → Nat → List Nat) (spectra : List A) (labels : List L)
    (p : Nat) : List L → Nat → Option (Splits A × Nat)
  | [], k => some (emptySplits, k)
  | l :: rest, k =>
    match labelMapLookup m l with
    | none => none
    | some code =>
      let filtered := maskFilter spectra labels l
      let s := processLabelGroup filtered code p (oracle k (filtered.length / p))
      match processLabels m oracle spectra labels p rest (k + 1) with
      | none => none
      | some (t, j) => some (appendSplits s t, j)

/-- The generation-mode source loop (lines 110-145) over the zipped
configuration: one entry per (spectral array, label array, patient interval). -/
def genSplits {A L : Type} [LinearOrder L] (m : List (L × Nat))
    (oracle : Nat → Nat → List Nat) :
    List (List A × List L × Nat) → Nat → Option (Splits A × Nat)
  | [], k => some (emptySplits, k)
  | (spectra, labels, p) :: rest, k =>
    match processLabels m oracle spectra labels p (npUnique labels) k with
    | none => none
    | some (s, j) =>
      match genSplits m oracle rest j with
      | none => none
      | some (t, j2) => some (appendSplits s t, j2)

/-- Construction of a SAMRaman orchestrator in generation mode
(use_pre_split = False): label vocabulary from the concatenated label
arrays, then _get_splits over the zip of the three configuration lists. -/
def SAMRamanGen {A L : Type} [LinearOrder L] (oracle : Nat → Nat → List Nat)
    (spectralArrays : List (List A)) (labelArrays : List (List L))
    (intervals : List Nat) : Option (Splits A) :=
  let m := getLabelMapping labelArrays.flatten
  (genSplits m oracle (pyZip3 spectralArrays labelArrays intervals) 0).map Prod.fst

/-- Conversion of a raw-label list to codes via repeated dict indexing, as in
the `for l in ...: set["labels"].extend([self.label_map[l]])` loops
(lines 101-106); a missing key raises KeyError (none). -/
def mapCodes {A : Type} [DecidableEq A] (m : List (A × Nat)) : List A → Option (List Nat)
  | [] => some []
  | l :: rest =>
    match labelMapLookup m l, mapCodes m rest with
    | some c, some cs => some (c :: cs)
    | _, _ => none

/-- The pre-split loop body (lines 85-106).  Note the asymmetry taken
directly from the source: the `data` entries of the three partitions are
ASSIGNED (`test_set["data"] = test_set_data`, lines 97-99), overwriting the
previous group, while the `labels` entries are EXTENDED across groups
(lines 101-106).  The splitter parameter stands for the external sklearn
train_test_split call of line 95, returning (train_data, validation_data,
train_labels, validation_labels). -/
def preSplitLoop {A L : Type} [DecidableEq L] (m : List (L × Nat))
    (splitter : List A → List L → List A × List A × List L × List L) :
    List (List A × List L × List A × List L) → Splits A → Option (Splits A)
  | [], acc => some acc
  | (trD, trL, teD, teL) :: rest, acc =>
    let q := splitter trD trL
    match mapCodes m teL, mapCodes m q.2.2.1, mapCodes m q.2.2.2 with
    | some teC, some trC, some vaC =>
      preSplitLoop m splitter rest
        ⟨q.1, acc.trainLabels ++ trC,
         q.2.1, acc.valLabels ++ vaC,
         teD, acc.testLabels ++ teC⟩
    | _, _, _ => none

/-- Construction of a SAMRaman orchestrator in pre-split mode
(use_pre_split = True): label vocabulary from all train label arrays then
all test label arrays, then the loop over the zip of the four path lists. -/
def SAMRamanPre {A L : Type} [LinearOrder L]
    (splitter : List A → List L → List A × List A × List L × List L)
    (trainDataArrays : List (List A)) (trainLabelArrays : List (List L))
    (testDataArrays : List (List A)) (testLabelArrays : List (List L)) :
    Option (Splits A) :=
  let m := getLabelMapping (trainLabelArrays.flatten ++ testLabelArrays.flatten)
  preSplitLoop m splitter
    (pyZip4 trainDataArrays trainLabelArrays testDataArrays testLabelArrays)
    emptySplits

/-- Construction with an explicit seed: np.random.seed(seed) (line 51)
selects the permutation stream that the np.random.permutation calls of
_get_splits consume; npRandom maps each seed to its stream. -/
def SAMRamanConstruct {A L : Type} [LinearOrder L]
    (npRandom : Nat → Nat → Nat → List Nat) (seed : Nat)
    (spectralArrays : List (List A)) (labelArrays : List (List L))
    (intervals : List Nat) : Option (Splits A) :=
  SAMRamanGen (npRandom seed) spectralArrays labelArrays intervals

/-- The samples of one source that generation mode distributes over the
three partitions: per unique label, the filtered spectra truncated to a
whole number of patient blocks. -/
def sourceUnion {A L : Type} [LinearOrder L] (spectra : List A) (labels : List L)
    (p : Nat) : List A :=
  (npUnique labels).flatMap (fun l =>
    let filtered := maskFilter spectra labels l
    filtered.take (filtered.length / p * p))

/-- The samples of one source that generation mode silently drops: per
unique label, the trailing remainder of the filtered spectra. -/
def sourceDropped {A L : Type} [LinearOrder L] (spectra : List A) (labels : List L)
    (p : Nat) : List A :=
  (npUnique labels).flatMap (fun l =>
    let filtered := maskFilter spectra labels l
    filtered.drop (filtered.length / p * p))

/-- The distributed samples of a whole zipped configuration. -/
def configUnion {A L : Type} [LinearOrder L] (cfg : List (List A × List L × Nat)) :
    List A :=
  cfg.flatMap (fun g => sourceUnion g.1 g.2.1 g.2.2)

/-- A concrete stand-in for the external sklearn train_test_split call, used
only to evaluate the pre-split loop at concrete inputs; the aggregation
behaviour of the loop (assignment versus extension of the partition fields)
does not depend on what the splitter returns. -/
def trivialSplitter {A L : Type} : List A → List L → List A × List A × List L × List L :=
  fun d l => (d, [], l, [])

example : npUnique [3, 1, 2, 1] = [1, 2, 3] := by decide

example : getLabelMapping [3, 1, 2, 1] = [(1, 0), (2, 1), (3, 2)] := by decide

example : trainSplitEnd 10 = 7 ∧ validationSplitEnd 10 = 8 := by decide

theorem npUnique_nodup {L : Type} [LinearOrder L] (xs : List L) : (npUnique xs).Nodup :=
  List.nodup_dedup _

theorem npUnique_sorted {L : Type} [LinearOrder L] (xs : List L) :
    (npUnique xs).Sorted (· ≤ ·) :=
  List.Pairwise.sublist (List.dedup_sublist _) (List.sorted_insertionSort _ xs)

theorem mem_npUnique {L : Type} [LinearOrder L] {xs : List L} {a : L} :
    a ∈ npUnique xs ↔ a ∈ xs := by
  rw [npUnique, List.mem_dedup]
  exact (List.perm_insertionSort _ xs).mem_iff

theorem npUnique_sorted_lt {L : Type} [LinearOrder L] (xs : List L) :
    (npUnique xs).Sorted (· < ·) := by
  have h1 := npUnique_sorted xs
  have h2 : (npUnique xs).Pairwise (· ≠ ·) := npUnique_nodup xs
  exact (h1.and h2).imp (fun h => lt_of_le_of_ne h.1 h.2)

theorem enumMap_map_fst {L : Type} (i : Nat) (u : List L) :
    (enumMap i u).map Prod.fst = u := by
  induction u generalizing i with
  | nil => rfl
  | cons a t ih => simp [enumMap, ih]

theorem enumMap_map_snd {L : Type} (i : Nat) (u : List L) :
    (enumMap i u).map Prod.snd = List.range' i u.length := by
  induction u generalizing i with
  | nil => rfl
  | cons a t ih => simp [enumMap, ih, List.range'_succ]

theorem enumMap_snd_bounds {L : Type} (i : Nat) (u : List L) :
    ∀ q ∈ enumMap i u, i ≤ q.2 ∧ q.2 < i + u.length := by
  induction u generalizing i with
  | nil => simp [enumMap]
  | cons a t ih =>
    intro q hq
    rcases List.mem_cons.mp hq with rfl | hq2
    · simp
    · have h := ih (i + 1) q hq2
      simp only [List.length_cons]
      omega

theorem decode_enumMap {L : Type} (i : Nat) (u : List L) :
    ∀ q ∈ enumMap i u, getOriginalLabel (getInverseMap (enumMap i u)) q.2 = some q.1 := by
  induction u generalizing i with
  | nil => simp [enumMap]
  | cons a t ih =>
    intro q hq
    rcases List.mem_cons.mp hq with rfl | hq2
    · simp [getOriginalLabel, getInverseMap, enumMap, List.find?]
    · have hlb := (enumMap_snd_bounds (i + 1) t q hq2).1
      have hne : ((i, a) : Nat × L).1 ≠ q.2 := by simp; omega
      have hrec := ih (i + 1) q hq2
      simp only [getOriginalLabel, getInverseMap, enumMap, List.map_cons] at hrec ⊢
      rw [List.find?_cons_of_neg _ (by simpa using hne)]
      exact hrec

theorem lookup_enumMap {L : Type} [DecidableEq L] (i : Nat) (u : List L)
    (hu : u.Nodup) (l : L) (hl : l ∈ u) :
    ∃ c, labelMapLookup (enumMap i u) l = some c ∧ (l, c) ∈ enumMap i u := by
  induction u generalizing i with
  | nil => simp at hl
  | cons a t ih =>
    rcases List.mem_cons.mp hl with rfl | hl2
    · refine ⟨i, ?_, by simp [enumMap]⟩
      simp [labelMapLookup, enumMap, List.find?]
    · have hne : a ≠ l := by
        rintro rfl
        exact (List.nodup_cons.mp hu).1 hl2
      obtain ⟨c, hc1, hc2⟩ := ih (i + 1) (List.nodup_cons.mp hu).2 hl2
      refine ⟨c, ?_, List.mem_cons_of_mem _ hc2⟩
      simp only [labelMapLookup, enumMap] at hc1 ⊢
      rw [List.find?_cons_of_neg _ (by simpa using hne)]
      exact hc1

/-- C5: the Label Map assigns the contiguous code range [0, num_classes) in
ascending sorted order of the unique raw labels, and decoding the code of any
raw label seen during vocabulary construction returns that label. -/
theorem labelMap_contiguous_sorted_roundtrip {L : Type} [LinearOrder L] (xs : List L) :
    ((getLabelMapping xs).map Prod.snd = List.range (npUnique xs).length)
    ∧ ((getLabelMapping xs).map Prod.fst).Sorted (· < ·)
    ∧ (∀ l ∈ xs, ∃ c, labelMapLookup (getLabelMapping xs) l = some c ∧
        getOriginalLabel (getInverseMap (getLabelMapping xs)) c = some l) := by
  refine ⟨?_, ?_, ?_⟩
  · rw [getLabelMapping, enumMap_map_snd, List.range_eq_range']
  · rw [getLabelMapping, enumMap_map_fst]
    exact npUnique_sorted_lt xs
  · intro l hl
    obtain ⟨c, hc1, hc2⟩ :=
      lookup_enumMap 0 (npUnique xs) (npUnique_nodup xs) l (mem_npUnique.mpr hl)
    exact ⟨c, hc1, decode_enumMap 0 (npUnique xs) (l, c) hc2⟩

/-- Witness for C5 at a concrete vocabulary. -/
theorem labelMap_contiguous_sorted_roundtrip_witness :
    ∃ c, labelMapLookup (getLabelMapping [(3 : Nat), 1, 2]) 3 = some c ∧
      getOriginalLabel (getInverseMap (getLabelMapping [(3 : Nat), 1, 2])) c = some 3 :=
  (labelMap_contiguous_sorted_roundtrip [(3 : Nat), 1, 2]).2.2 3 (by decide)

/-- C9: decoding a code assigned during vocabulary construction returns the
original raw label, and decoding any code outside the assigned set fails
with a lookup error (none, modelling KeyError). -/
theorem decode_assigned_roundtrip_and_missing_fails {L : Type} [LinearOrder L]
    (xs : List L) :
    (∀ q ∈ getLabelMapping xs,
        getOriginalLabel (getInverseMap (getLabelMapping xs)) q.2 = some q.1)
    ∧ (∀ c, c ∉ (getLabelMapping xs).map Prod.snd →
        getOriginalLabel (getInverseMap (getLabelMapping xs)) c = none) := by
  constructor
  · exact decode_enumMap 0 (npUnique xs)
  · intro c hc
    have h : ∀ r ∈ getInverseMap (getLabelMapping xs),
        ¬ ((fun q => decide (q.1 = c)) r = true) := by
      intro r hr hr2
      simp only [decide_eq_true_eq] at hr2
      obtain ⟨q, hq, rfl⟩ := List.mem_map.mp hr
      exact hc (List.mem_map.mpr ⟨q, hq, hr2⟩)
    simp [getOriginalLabel, List.find?_eq_none.mpr h]

/-- Witness for C9: code 2 decodes to its label, code 7 was never assigned
and decoding it fails. -/
theorem decode_assigned_roundtrip_and_missing_fails_witness :
    getOriginalLabel (getInverseMap (getLabelMapping [(3 : Nat), 1, 2])) 2 = some 3
    ∧ getOriginalLabel (getInverseMap (getLabelMapping [(3 : Nat), 1, 2])) 7 = none :=
  ⟨(decode_assigned_roundtrip_and_missing_fails [(3 : Nat), 1, 2]).1 (3, 2) (by decide),
   (decode_assigned_roundtrip_and_missing_fails [(3 : Nat), 1, 2]).2 7 (by decide)⟩

theorem trainSplitEnd_le_validationSplitEnd (n : Nat) :
    trainSplitEnd n ≤ validationSplitEnd n := by
  unfold trainSplitEnd validationSplitEnd
  omega

theorem validationSplitEnd_le (n : Nat) : validationSplitEnd n ≤ n := by
  unfold validationSplitEnd
  omega

theorem take_add_take_drop {A : Type} (l : List A) (a b : Nat) (h : a ≤ b) :
    l.take a ++ (l.drop a).take (b - a) = l.take b := by
  have hb : b = a + (b - a) := by omega
  conv_rhs => rw [hb]
  rw [List.take_add]

/-- The three slices of the permuted patient-index array concatenate back to
the whole array. -/
theorem idx_decomposition (perm : List Nat) (n : Nat) :
    trainIdxs perm n ++ (valIdxs perm n ++ testIdxs perm n) = perm := by
  unfold trainIdxs valIdxs testIdxs
  rw [← List.append_assoc,
      take_add_take_drop perm _ _ (trainSplitEnd_le_validationSplitEnd n),
      List.take_append_drop]

theorem range_flatMap_blockSlice {A : Type} (xs : List A) (p n : Nat) :
    (List.range n).flatMap (fun i => blockSlice xs p i) = xs.take (n * p) := by
  induction n with
  | zero => simp
  | succ n ih =>
    rw [List.range_succ, List.flatMap_append, ih]
    simp only [List.flatMap_cons, List.flatMap_nil, List.append_nil, blockSlice]
    rw [← List.take_add]
    congr 1
    ring

theorem blockSlice_length {A : Type} (xs : List A) (p i : Nat)
    (h : (i + 1) * p ≤ xs.length) : (blockSlice xs p i).length = p := by
  rw [Nat.succ_mul] at h
  simp only [blockSlice, List.length_take, List.length_drop]
  omega

theorem partData_length {A : Type} (xs : List A) (p : Nat) (idxs : List Nat)
    (h : ∀ i ∈ idxs, (i + 1) * p ≤ xs.length) :
    (partData xs p idxs).length = idxs.length * p := by
  induction idxs with
  | nil => simp [partData]
  | cons a t ih =>
    have ha := blockSlice_length xs p a (h a (List.mem_cons_self a t))
    have ht := ih (fun i hi => h i (List.mem_cons_of_mem a hi))
    simp only [partData, List.flatMap_cons, List.length_append] at ht ⊢
    rw [ha, ht, List.length_cons, Nat.succ_mul]
    omega

theorem partLabels_length (code p : Nat) (idxs : List Nat) :
    (partLabels code p idxs).length = idxs.length * p := by
  induction idxs with
  | nil => simp [partLabels]
  | cons a t ih =>
    simp only [partLabels, List.flatMap_cons, List.length_append,
      List.length_replicate] at ih ⊢
    rw [ih, List.length_cons, Nat.succ_mul]
    omega

theorem mem_of_mem_parts (perm : List Nat) (n i : Nat)
    (h : i ∈ trainIdxs perm n ∨ i ∈ valIdxs perm n ∨ i ∈ testIdxs perm n) :
    i ∈ perm := by
  rw [← idx_decomposition perm n]
  simp only [List.mem_append]
  tauto

theorem perm_mem_bound {A : Type} (filtered : List A) (p : Nat) (perm : List Nat)
    (h : List.Perm perm (List.range (filtered.length / p))) :
    ∀ i ∈ perm, (i + 1) * p ≤ filtered.length := by
  intro i hi
  have hlt : i < filtered.length / p := List.mem_range.mp (h.mem_iff.mp hi)
  calc (i + 1) * p ≤ (filtered.length / p) * p := Nat.mul_le_mul_right p (by omega)
    _ ≤ filtered.length := Nat.div_mul_le_self _ _

/-- The data sequences of the three partitions of one (source, label) group
together are a permutation of the whole-patient-blocks prefix of the
filtered spectra. -/
theorem processLabelGroup_data_union {A : Type} (filtered : List A) (code p : Nat)
    (perm : List Nat) (h : List.Perm perm (List.range (filtered.length / p))) :
    List.Perm ((processLabelGroup filtered code p perm).trainData ++
        ((processLabelGroup filtered code p perm).valData ++
         (processLabelGroup filtered code p perm).testData))
      (filtered.take (filtered.length / p * p)) := by
  have hdecomp : (processLabelGroup filtered code p perm).trainData ++
      ((processLabelGroup filtered code p perm).valData ++
       (processLabelGroup filtered code p perm).testData) =
      perm.flatMap (fun i => blockSlice filtered p i) := by
    simp only [processLabelGroup, partData]
    rw [← List.flatMap_append, ← List.flatMap_append, idx_decomposition]
  rw [hdecomp, ← range_flatMap_blockSlice filtered p (filtered.length / p)]
  exact h.flatMap_right (fun i => blockSlice filtered p i)

theorem processLabelGroup_lengths {A : Type} (filtered : List A) (code p : Nat)
    (perm : List Nat) (h : List.Perm perm (List.range (filtered.length / p))) :
    ((processLabelGroup filtered code p perm).trainData.length =
      (processLabelGroup filtered code p perm).trainLabels.length)
    ∧ ((processLabelGroup filtered code p perm).valData.length =
      (processLabelGroup filtered code p perm).valLabels.length)
    ∧ ((processLabelGroup filtered code p perm).testData.length =
      (processLabelGroup filtered code p perm).testLabels.length) := by
  have hb := perm_mem_bound filtered p perm h
  refine ⟨?_, ?_, ?_⟩
  · simp only [processLabelGroup]
    rw [partData_length _ _ _
      (fun i hi => hb i (mem_of_mem_parts _ _ i (Or.inl hi))), partLabels_length]
  · simp only [processLabelGroup]
    rw [partData_length _ _ _
      (fun i hi => hb i (mem_of_mem_parts _ _ i (Or.inr (Or.inl hi)))), partLabels_length]
  · simp only [processLabelGroup]
    rw [partData_length _ _ _
      (fun i hi => hb i (mem_of_mem_parts _ _ i (Or.inr (Or.inr hi)))), partLabels_length]

/-- The three patient-index ranges cut out of one permutation are pairwise
disjoint and together cover the whole index range. -/
theorem idxs_pairwise_disjoint (perm : List Nat) (n : Nat)
    (h : List.Perm perm (List.range n)) :
    ((trainIdxs perm n).Disjoint (valIdxs perm n)
    ∧ (trainIdxs perm n).Disjoint (testIdxs perm n)
    ∧ (valIdxs perm n).Disjoint (testIdxs perm n))
    ∧ List.Perm (trainIdxs perm n ++ (valIdxs perm n ++ testIdxs perm n))
        (List.range n) := by
  have hnd : perm.Nodup := h.symm.nodup (List.nodup_range n)
  have hdec := idx_decomposition perm n
  have hnd2 : (trainIdxs perm n ++ (valIdxs perm n ++ testIdxs perm n)).Nodup := by
    rw [hdec]
    exact hnd
  obtain ⟨h1, h2, h3⟩ := List.nodup_append.mp hnd2
  obtain ⟨h4, h5, h6⟩ := List.nodup_append.mp h2
  refine ⟨⟨?_, ?_, h6⟩, ?_⟩
  · intro x hx hy
    exact h3 hx (List.mem_append_left _ hy)
  · intro x hx hy
    exact h3 hx (List.mem_append_right _ hy)
  · rw [hdec]
    exact h

/-- C6: when the patient interval p does not divide the per-label sample
count, exactly count % p trailing samples of the filtered spectra are
dropped, and (for distinguishable samples) none of them lands in any of the
three partitions. -/
theorem generation_remainder_dropped {A : Type} (filtered : List A) (code p : Nat)
    (perm : List Nat)
    (h : List.Perm perm (List.range (filtered.length / p)))
    (hnd : filtered.Nodup) :
    ((filtered.drop (filtered.length / p * p)).length = filtered.length % p)
    ∧ ∀ x ∈ filtered.drop (filtered.length / p * p),
        x ∉ (processLabelGroup filtered code p perm).trainData
        ∧ x ∉ (processLabelGroup filtered code p perm).valData
        ∧ x ∉ (processLabelGroup filtered code p perm).testData := by
  constructor
  · have hdm := Nat.div_add_mod filtered.length p
    have hcomm : filtered.length / p * p = p * (filtered.length / p) :=
      Nat.mul_comm _ _
    rw [List.length_drop]
    omega
  · intro x hx
    have hsplit := List.take_append_drop (filtered.length / p * p) filtered
    have hnd2 : (filtered.take (filtered.length / p * p) ++
        filtered.drop (filtered.length / p * p)).Nodup := by
      rw [hsplit]
      exact hnd
    have hdisj := (List.nodup_append.mp hnd2).2.2
    have hnotin : x ∉ filtered.take (filtered.length / p * p) :=
      fun hxt => hdisj hxt hx
    have hu := processLabelGroup_data_union filtered code p perm h
    exact ⟨fun hxx => hnotin (hu.mem_iff.mp (List.mem_append_left _ hxx)),
           fun hxx => hnotin (hu.mem_iff.mp
             (List.mem_append_right _ (List.mem_append_left _ hxx))),
           fun hxx => hnotin (hu.mem_iff.mp
             (List.mem_append_right _ (List.mem_append_right _ hxx)))⟩

/-- Witness for C6: five distinct samples with patient interval 2 drop
exactly the one trailing sample, which lands in no partition. -/
theorem generation_remainder_dropped_witness :
    (((List.range 5).drop ((List.range 5).length / 2 * 2)).length =
      (List.range 5).length % 2)
    ∧ ∀ x ∈ (List.range 5).drop ((List.range 5).length / 2 * 2),
        x ∉ (processLabelGroup (List.range 5) 0 2 (List.range 2)).trainData
        ∧ x ∉ (processLabelGroup (List.range 5) 0 2 (List.range 2)).valData
        ∧ x ∉ (processLabelGroup (List.range 5) 0 2 (List.range 2)).testData :=
  generation_remainder_dropped (List.range 5) 0 2 (List.range 2)
    (by decide) (by decide)

theorem processLabels_union {A L : Type} [DecidableEq L] (m : List (L × Nat))
    (oracle : Nat → Nat → List Nat) (spectra : List A) (labels : List L) (p : Nat)
    (hOr : ∀ a b, List.Perm (oracle a b) (List.range b)) :
    ∀ (us : List L) (k : Nat) (s : Splits A) (j : Nat),
      processLabels m oracle spectra labels p us k = some (s, j) →
      (↑s.trainData + (↑s.valData + ↑s.testData) : Multiset A) =
        ↑(us.flatMap (fun l =>
            let f := maskFilter spectra labels l
            f.take (f.length / p * p))) := by
  intro us
  induction us with
  | nil =>
    intro k s j h
    simp only [processLabels, Option.some.injEq, Prod.mk.injEq] at h
    rw [← h.1]
    simp [emptySplits]
  | cons l rest ih =>
    intro k s j h
    simp only [processLabels] at h
    cases hlk : labelMapLookup m l with
    | none =>
      rw [hlk] at h
      cases h
    | some code =>
      rw [hlk] at h
      cases hrec : processLabels m oracle spectra labels p rest (k + 1) with
      | none =>
        rw [hrec] at h
        cases h
      | some tj =>
        obtain ⟨t, j₂⟩ := tj
        rw [hrec] at h
        simp only [Option.some.injEq, Prod.mk.injEq] at h
        obtain ⟨hs, hj⟩ := h
        rw [← hs]
        have h₀ := processLabelGroup_data_union (maskFilter spectra labels l) code p
          (oracle k ((maskFilter spectra labels l).length / p))
          (hOr k ((maskFilter spectra labels l).length / p))
        have h₁ := ih (k + 1) t j₂ hrec
        simp only [appendSplits, List.flatMap_cons]
        have hco : (↑((processLabelGroup (maskFilter spectra labels l) code p
            (oracle k ((maskFilter spectra labels l).length / p))).trainData ++
            ((processLabelGroup (maskFilter spectra labels l) code p
              (oracle k ((maskFilter spectra labels l).length / p))).valData ++
             (processLabelGroup (maskFilter spectra labels l) code p
              (oracle k ((maskFilter spectra labels l).length / p))).testData)) :
            Multiset A) =
            ↑((maskFilter spectra labels l).take
              ((maskFilter spectra labels l).length / p * p)) :=
          Multiset.coe_eq_coe.mpr h₀
    
        simp only [← Multiset.coe_add] at hco h₁ ⊢
        rw [show ∀ (a b c d e f : Multiset A),
            (a + d) + ((b + e) + (c + f)) = (a + (b + c)) + (d + (e + f)) from
            fun a b c d e f => by abel]
        rw [hco, h₁]

theorem processLabels_lengths {A L : Type} [DecidableEq L] (m : List (L × Nat))
    (oracle : Nat → Nat → List Nat) (spectra : List A) (labels : List L) (p : Nat)
    (hOr : ∀ a b, List.Perm (oracle a b) (List.range b)) :
    ∀ (us : List L) (k : Nat) (s : Splits A) (j : Nat),
      processLabels m oracle spectra labels p us k = some (s, j) →
      s.trainData.length = s.trainLabels.length
      ∧ s.valData.length = s.valLabels.length
      ∧ s.testData.length = s.testLabels.length := by
  intro us
  induction us with
  | nil =>
    intro k s j h
    simp only [processLabels, Option.some.injEq, Prod.mk.injEq] at h
    rw [← h.1]
    simp [emptySplits]
  | cons l rest ih =>
    intro k s j h
    simp only [processLabels] at h
    cases hlk : labelMapLookup m l with
    | none =>
      rw [hlk] at h
      cases h
    | some code =>
      rw [hlk] at h
      cases hrec : processLabels m oracle spectra labels p rest (k + 1) with
      | none =>
        rw [hrec] at h
        cases h
      | some tj =>
        obtain ⟨t, j₂⟩ := tj
        rw [hrec] at h
        simp only [Option.some.injEq, Prod.mk.injEq] at h
        obtain ⟨hs, hj⟩ := h
        rw [← hs]
        have h₀ := processLabelGroup_lengths (maskFilter spectra labels l) code p
          (oracle k ((maskFilter spectra labels l).length / p))
          (hOr k ((maskFilter spectra labels l).length / p))
        have h₁ := ih (k + 1) t j₂ hrec
        simp only [appendSplits, List.length_append]
        omega

theorem genSplits_union {A L : Type} [LinearOrder L] (m : List (L × Nat))
    (oracle : Nat → Nat → List Nat)
    (hOr : ∀ a b, List.Perm (oracle a b) (List.range b)) :
    ∀ (cfg : List (List A × List L × Nat)) (k : Nat) (s : Splits A) (j : Nat),
      genSplits m oracle cfg k = some (s, j) →
      (↑s.trainData + (↑s.valData + ↑s.testData) : Multiset A) = ↑(configUnion cfg) := by
  intro cfg
  induction cfg with
  | nil =>
    intro k s j h
    simp only [genSplits, Option.some.injEq, Prod.mk.injEq] at h
    rw [← h.1]
    simp [emptySplits, configUnion]
  | cons g rest ih =>
    intro k s j h
    obtain ⟨spectra, labels, p⟩ := g
    simp only [genSplits] at h
    cases hpl : processLabels m oracle spectra labels p (npUnique labels) k with
    | none =>
      rw [hpl] at h
      cases h
    | some sj =>
      obtain ⟨s₀, j₀⟩ := sj
      rw [hpl] at h
      dsimp only at h
      cases hrest : genSplits m oracle rest j₀ with
      | none =>
        rw [hrest] at h
        cases h
      | some tj =>
        obtain ⟨t, j₂⟩ := tj
        rw [hrest] at h
        simp only [Option.some.injEq, Prod.mk.injEq] at h
        obtain ⟨hs, hj⟩ := h
        rw [← hs]
        have h₀ := processLabels_union m oracle spectra labels p hOr
          (npUnique labels) k s₀ j₀ hpl
        have h₁ := ih j₀ t j₂ hrest
        simp only [appendSplits, configUnion, List.flatMap_cons]
        simp only [← Multiset.coe_add] at h₀ h₁ ⊢
        rw [show ∀ (a b c d e f : Multiset A),
            (a + d) + ((b + e) + (c + f)) = (a + (b + c)) + (d + (e + f)) from
            fun a b c d e f => by abel]
        rw [h₀, h₁]
        rfl

theorem genSplits_lengths {A L : Type} [LinearOrder L] (m : List (L × Nat))
    (oracle : Nat → Nat → List Nat)
    (hOr : ∀ a b, List.Perm (oracle a b) (List.range b)) :
    ∀ (cfg : List (List A × List L × Nat)) (k : Nat) (s : Splits A) (j : Nat),
      genSplits m oracle cfg k = some (s, j) →
      s.trainData.length = s.trainLabels.length
      ∧ s.valData.length = s.valLabels.length
      ∧ s.testData.length = s.testLabels.length := by
  intro cfg
  induction cfg with
  | nil =>
    intro k s j h
    simp only [genSplits, Option.some.injEq, Prod.mk.injEq] at h
    rw [← h.1]
    simp [emptySplits]
  | cons g rest ih =>
    intro k s j h
    obtain ⟨spectra, labels, p⟩ := g
    simp only [genSplits] at h
    cases hpl : processLabels m oracle spectra labels p (npUnique labels) k with
    | none =>
      rw [hpl] at h
      cases h
    | some sj =>
      obtain ⟨s₀, j₀⟩ := sj
      rw [hpl] at h
      dsimp only at h
      cases hrest : genSplits m oracle rest j₀ with
      | none =>
        rw [hrest] at h
        cases h
      | some tj =>
        obtain ⟨t, j₂⟩ := tj
        rw [hrest] at h
        simp only [Option.some.injEq, Prod.mk.injEq] at h
        obtain ⟨hs, hj⟩ := h
        rw [← hs]
        have h₀ := processLabels_lengths m oracle spectra labels p hOr
          (npUnique labels) k s₀ j₀ hpl
        have h₁ := ih j₀ t j₂ hrest
        simp only [appendSplits, List.length_append]
        omega


theorem flatMap_congr_mem {A B : Type} (l : List A) (f g : A → List B)
    (h : ∀ a ∈ l, f a = g a) : l.flatMap f = l.flatMap g := by
  induction l with
  | nil => rfl
  | cons a t ih =>
    rw [List.flatMap_cons, List.flatMap_cons, h a (List.mem_cons_self a t),
        ih (fun x hx => h x (List.mem_cons_of_mem a hx))]

/-- Filtering a list of (sample, label) pairs once per distinct label and
concatenating recovers the whole list up to permutation. -/
theorem filter_key_partition {P L : Type} [DecidableEq L] :
    ∀ (us : List L) (pairs : List (P × L)), us.Nodup →
      (∀ q ∈ pairs, q.2 ∈ us) →
      List.Perm (us.flatMap (fun l => pairs.filter (fun q => decide (q.2 = l)))) pairs := by
  intro us
  induction us with
  | nil =>
    intro pairs _ hcov
    cases pairs with
    | nil => simp
    | cons q t => exact absurd (hcov q (List.mem_cons_self q t)) (by simp)
  | cons a rest ih =>
    intro pairs hu hcov
    rw [List.flatMap_cons]
    have hstep : rest.flatMap (fun l => pairs.filter (fun q => decide (q.2 = l))) =
        rest.flatMap (fun l => (pairs.filter (fun q => !decide (q.2 = a))).filter
          (fun q => decide (q.2 = l))) := by
      apply flatMap_congr_mem
      intro l hl
      have hla : l ≠ a := by
        rintro rfl
        exact (List.nodup_cons.mp hu).1 hl
      rw [List.filter_filter]
      apply List.filter_congr
      intro q hq
      by_cases hql : q.2 = l
      · simp [hql, hla]
      · simp [hql]
    rw [hstep]
    have hcov2 : ∀ q ∈ pairs.filter (fun q => !decide (q.2 = a)), q.2 ∈ rest := by
      intro q hq
      have h1 := List.of_mem_filter hq
      have h2 := List.mem_of_mem_filter hq
      simp only [Bool.not_eq_true', decide_eq_false_iff_not] at h1
      rcases List.mem_cons.mp (hcov q h2) with h3 | h3
      · exact absurd h3 h1
      · exact h3
    have hperm := ih (pairs.filter (fun q => !decide (q.2 = a)))
      (List.nodup_cons.mp hu).2 hcov2
    exact List.Perm.trans (hperm.append_left _) (List.filter_append_perm _ pairs)

theorem coe_flatMap_add {A B : Type} (l : List A) (f g : A → List B) :
    (↑(l.flatMap f) + ↑(l.flatMap g) : Multiset B) = ↑(l.flatMap (fun a => f a ++ g a)) := by
  induction l with
  | nil => simp
  | cons a t ih =>
    rw [List.flatMap_cons, List.flatMap_cons, List.flatMap_cons]
    simp only [← Multiset.coe_add] at ih ⊢
    rw [show ∀ (x y u v : Multiset B), (x + u) + (y + v) = (x + y) + (u + v) from
        fun x y u v => by abel]
    rw [ih]

/-- The distributed samples and the dropped remainders of one source together
are exactly the samples of the source (for aligned spectra and labels). -/
theorem source_union_dropped {A L : Type} [LinearOrder L] (spectra : List A)
    (labels : List L) (p : Nat) (h : spectra.length = labels.length) :
    (↑(sourceUnion spectra labels p) + ↑(sourceDropped spectra labels p) : Multiset A)
      = ↑spectra := by
  rw [sourceUnion, sourceDropped, coe_flatMap_add]
  have htd : (npUnique labels).flatMap (fun l =>
      (maskFilter spectra labels l).take ((maskFilter spectra labels l).length / p * p) ++
      (maskFilter spectra labels l).drop ((maskFilter spectra labels l).length / p * p)) =
      (npUnique labels).flatMap (fun l => maskFilter spectra labels l) := by
    apply flatMap_congr_mem
    intro l _
    exact List.take_append_drop _ _
  rw [htd]
  have hmf : (npUnique labels).flatMap (fun l => maskFilter spectra labels l) =
      ((npUnique labels).flatMap (fun l =>
        (spectra.zip labels).filter (fun q => decide (q.2 = l)))).map Prod.fst := by
    rw [List.map_flatMap]
    rfl
  rw [hmf]
  apply Multiset.coe_eq_coe.mpr
  have hperm := filter_key_partition (npUnique labels) (spectra.zip labels)
    (npUnique_nodup labels)
    (fun q hq => mem_npUnique.mpr (List.of_mem_zip hq).2)
  have hmap := hperm.map Prod.fst
  rw [List.map_fst_zip spectra labels h.le] at hmap
  exact hmap

/-- C4: whenever generation-mode splitting succeeds, the data of the three
partitions together are a permutation (multiset equality) of the distributed
samples of the configuration; per group the three patient-index ranges cut
from one permutation are pairwise disjoint and cover the index range; and
per source the distributed samples plus the dropped remainders are exactly
the input samples. -/
theorem generation_partitions_disjoint_cover {A L : Type} [LinearOrder L]
    (m : List (L × Nat)) (oracle : Nat → Nat → List Nat)
    (cfg : List (List A × List L × Nat)) (k : Nat) (s : Splits A) (j : Nat)
    (hOr : ∀ a b, List.Perm (oracle a b) (List.range b))
    (h : genSplits m oracle cfg k = some (s, j)) :
    ((↑s.trainData + (↑s.valData + ↑s.testData) : Multiset A) = ↑(configUnion cfg))
    ∧ (∀ (perm : List Nat) (n : Nat), List.Perm perm (List.range n) →
        ((trainIdxs perm n).Disjoint (valIdxs perm n)
        ∧ (trainIdxs perm n).Disjoint (testIdxs perm n)
        ∧ (valIdxs perm n).Disjoint (testIdxs perm n))
        ∧ List.Perm (trainIdxs perm n ++ (valIdxs perm n ++ testIdxs perm n))
            (List.range n))
    ∧ (∀ (spectra : List A) (labels : List L) (p : Nat),
        spectra.length = labels.length →
        (↑(sourceUnion spectra labels p) + ↑(sourceDropped spectra labels p) :
          Multiset A) = ↑spectra) :=
  ⟨genSplits_union m oracle hOr cfg k s j h,
   fun perm n hp => idxs_pairwise_disjoint perm n hp,
   fun spectra labels p hl => source_union_dropped spectra labels p hl⟩

/-- Witness for C4 at a concrete one-source configuration. -/
theorem generation_partitions_disjoint_cover_witness :
    ∃ s j, genSplits (getLabelMapping [(0 : Nat), 0, 0, 0]) (fun _ n => List.range n)
        [([(10 : Nat), 20, 30, 40], [(0 : Nat), 0, 0, 0], 2)] 0 = some (s, j)
      ∧ (↑s.trainData + (↑s.valData + ↑s.testData) : Multiset Nat) =
          ↑(configUnion [([(10 : Nat), 20, 30, 40], [(0 : Nat), 0, 0, 0], 2)]) := by
  refine ⟨⟨[10, 20], [0, 0], [], [], [30, 40], [0, 0]⟩, 1, rfl, ?_⟩
  exact (generation_partitions_disjoint_cover
    (getLabelMapping [(0 : Nat), 0, 0, 0]) (fun _ n => List.range n)
    [([(10 : Nat), 20, 30, 40], [(0 : Nat), 0, 0, 0], 2)] 0
    ⟨[10, 20], [0, 0], [], [], [30, 40], [0, 0]⟩ 1
    (fun _ _ => List.Perm.refl _) rfl).1

/-- C10: whenever generation-mode splitting succeeds, every partition has
data and label sequences of equal length, and a patient block wholly inside
the filtered spectra contributes exactly p sample rows while each index in a
range contributes exactly p label copies. -/
theorem generation_partition_alignment {A L : Type} [LinearOrder L]
    (m : List (L × Nat)) (oracle : Nat → Nat → List Nat)
    (cfg : List (List A × List L × Nat)) (k : Nat) (s : Splits A) (j : Nat)
    (hOr : ∀ a b, List.Perm (oracle a b) (List.range b))
    (h : genSplits m oracle cfg k = some (s, j)) :
    (s.trainData.length = s.trainLabels.length
    ∧ s.valData.length = s.valLabels.length
    ∧ s.testData.length = s.testLabels.length)
    ∧ (∀ (xs : List A) (p i : Nat), (i + 1) * p ≤ xs.length →
        (blockSlice xs p i).length = p)
    ∧ (∀ (code p : Nat) (idxs : List Nat),
        (partLabels code p idxs).length = idxs.length * p) :=
  ⟨genSplits_lengths m oracle hOr cfg k s j h,
   fun xs p i hb => blockSlice_length xs p i hb,
   fun code p idxs => partLabels_length code p idxs⟩

/-- Witness for C10 at a concrete one-source configuration. -/
theorem generation_partition_alignment_witness :
    ∃ s j, genSplits (getLabelMapping [(0 : Nat), 0, 0, 0]) (fun _ n => List.range n)
        [([(10 : Nat), 20, 30, 40], [(0 : Nat), 0, 0, 0], 2)] 0 = some (s, j)
      ∧ s.trainData.length = s.trainLabels.length
      ∧ s.valData.length = s.valLabels.length
      ∧ s.testData.length = s.testLabels.length := by
  refine ⟨⟨[10, 20], [0, 0], [], [], [30, 40], [0, 0]⟩, 1, rfl, ?_⟩
  exact (generation_partition_alignment
    (getLabelMapping [(0 : Nat), 0, 0, 0]) (fun _ n => List.range n)
    [([(10 : Nat), 20, 30, 40], [(0 : Nat), 0, 0, 0], 2)] 0
    ⟨[10, 20], [0, 0], [], [], [30, 40], [0, 0]⟩ 1
    (fun _ _ => List.Perm.refl _) rfl).1

theorem maskFilter_replicate {A L : Type} [DecidableEq L] (spectra : List A) (l : L)
    (n : Nat) (h : spectra.length = n) :
    maskFilter spectra (List.replicate n l) l = spectra := by
  unfold maskFilter
  have hall : ∀ q ∈ spectra.zip (List.replicate n l),
      (fun q => decide (q.2 = l)) q = true := by
    intro q hq
    have hmem := (List.of_mem_zip hq).2
    simp [List.eq_of_mem_replicate hmem]
  rw [List.filter_eq_self.mpr hall]
  exact List.map_fst_zip _ _ (by rw [h, List.length_replicate])

/-- C1: in generation mode, a single source with a single label, patient
interval 2 and 20 samples (10 patient blocks) is split at the boundaries
floor(0.7 * 10) = 7 and floor(0.85 * 10) = 8, giving 7/1/2 patients and
14/2/4 samples in train/validation/test. -/
theorem generation_concrete_split_counts {A : Type} (oracle : Nat → Nat → List Nat)
    (spectra : List A) (h20 : spectra.length = 20)
    (hOr : ∀ a b, List.Perm (oracle a b) (List.range b)) :
    ∃ s, SAMRamanGen oracle [spectra] [List.replicate 20 (0 : Nat)] [2] = some s
      ∧ (trainIdxs (oracle 0 10) 10).length = 7
      ∧ (valIdxs (oracle 0 10) 10).length = 1
      ∧ (testIdxs (oracle 0 10) 10).length = 2
      ∧ s.trainData.length = 14 ∧ s.trainLabels.length = 14
      ∧ s.valData.length = 2 ∧ s.valLabels.length = 2
      ∧ s.testData.length = 4 ∧ s.testLabels.length = 4 := by
  have hpl : (oracle 0 10).length = 10 :=
    ((hOr 0 10).length_eq).trans (List.length_range 10)
  have hmf : maskFilter spectra (List.replicate 20 (0 : Nat)) 0 = spectra :=
    maskFilter_replicate spectra 0 20 h20
  have hm : getLabelMapping (List.replicate 20 (0 : Nat)) = [(0, 0)] := by decide
  have hlk : labelMapLookup [((0 : Nat), 0)] 0 = some 0 := by decide
  have hups : npUnique (List.replicate 20 (0 : Nat)) = [0] := by decide
  have hps : processLabels [((0 : Nat), 0)] oracle spectra
      (List.replicate 20 (0 : Nat)) 2 [0] 0
      = some (appendSplits (processLabelGroup spectra 0 2 (oracle 0 10)) emptySplits, 1) := by
    simp only [processLabels, hlk, hmf]
    rw [show spectra.length / 2 = 10 by omega]
  have hgen : SAMRamanGen oracle [spectra] [List.replicate 20 (0 : Nat)] [2] =
      some (appendSplits (appendSplits (processLabelGroup spectra 0 2 (oracle 0 10))
        emptySplits) emptySplits) := by
    unfold SAMRamanGen
    simp only [pyZip3, List.flatten, List.append_nil, hm, genSplits, hups, hps]
    rfl
  have hbound : ∀ i ∈ oracle 0 10, (i + 1) * 2 ≤ spectra.length := by
    intro i hi
    have : i < 10 := List.mem_range.mp ((hOr 0 10).mem_iff.mp hi)
    omega
  have htr : (trainIdxs (oracle 0 10) 10).length = 7 := by
    rw [trainIdxs, List.length_take, hpl]
    rfl
  have hva : (valIdxs (oracle 0 10) 10).length = 1 := by
    rw [valIdxs, List.length_take, List.length_drop, hpl]
    rfl
  have hte : (testIdxs (oracle 0 10) 10).length = 2 := by
    rw [testIdxs, List.length_drop, hpl]
    rfl
  have hn : spectra.length / 2 = 10 := by omega
  refine ⟨_, hgen, htr, hva, hte, ?_, ?_, ?_, ?_, ?_, ?_⟩ <;>
    simp only [appendSplits, emptySplits, processLabelGroup, List.append_nil, hn]
  · rw [partData_length _ _ _
        (fun i hi => hbound i (mem_of_mem_parts _ _ i (Or.inl hi))), htr]
  · rw [partLabels_length, htr]
  · rw [partData_length _ _ _
        (fun i hi => hbound i (mem_of_mem_parts _ _ i (Or.inr (Or.inl hi)))), hva]
  · rw [partLabels_length, hva]
  · rw [partData_length _ _ _
        (fun i hi => hbound i (mem_of_mem_parts _ _ i (Or.inr (Or.inr hi)))), hte]
  · rw [partLabels_length, hte]

/-- Witness for C1 with the identity permutation stream and 20 concrete
samples. -/
theorem generation_concrete_split_counts_witness :
    ∃ s, SAMRamanGen (fun _ n => List.range n) [List.range 20]
        [List.replicate 20 (0 : Nat)] [2] = some s
      ∧ (trainIdxs (List.range 10) 10).length = 7
      ∧ (valIdxs (List.range 10) 10).length = 1
      ∧ (testIdxs (List.range 10) 10).length = 2
      ∧ s.trainData.length = 14 ∧ s.trainLabels.length = 14
      ∧ s.valData.length = 2 ∧ s.valLabels.length = 2
      ∧ s.testData.length = 4 ∧ s.testLabels.length = 4 :=
  generation_concrete_split_counts (fun _ n => List.range n) (List.range 20)
    (by simp) (fun _ _ => List.Perm.refl _)

/-- C7: construction is a pure function of the seed and the input arrays: two
constructions with the same seed and the same inputs produce identical
partitions (membership and internal order). -/
theorem construction_deterministic {A L : Type} [LinearOrder L]
    (npRandom : Nat → Nat → Nat → List Nat) (seed1 seed2 : Nat)
    (sp1 sp2 : List (List A)) (la1 la2 : List (List L)) (iv1 iv2 : List Nat)
    (hs : seed1 = seed2) (hsp : sp1 = sp2) (hla : la1 = la2) (hiv : iv1 = iv2) :
    SAMRamanConstruct npRandom seed1 sp1 la1 iv1 =
      SAMRamanConstruct npRandom seed2 sp2 la2 iv2 := by
  rw [hs, hsp, hla, hiv]

/-- Witness for C7 at a concrete seed and input. -/
theorem construction_deterministic_witness :
    SAMRamanConstruct (fun _ _ n => List.range n) 42 [[(1 : Nat), 2]]
        [[(0 : Nat), 0]] [2] =
      SAMRamanConstruct (fun _ _ n => List.range n) 42 [[(1 : Nat), 2]]
        [[(0 : Nat), 0]] [2] :=
  construction_deterministic (fun _ _ n => List.range n) 42 42
    [[(1 : Nat), 2]] [[(1 : Nat), 2]] [[(0 : Nat), 0]] [[(0 : Nat), 0]]
    [2] [2] rfl rfl rfl rfl

theorem pyGet_eq_none {A : Type} (xs : List A) (i : Int)
    (h : i < -(xs.length : Int) ∨ (xs.length : Int) ≤ i) : pyGet xs i = none := by
  simp only [pyGet]
  by_cases hi : i < 0
  · rw [if_pos hi, if_neg (by omega)]
  · rw [if_neg hi, if_neg (by omega)]

theorem pyGet_isSome {A : Type} (xs : List A) (i : Int) (h0 : 0 ≤ i)
    (h1 : i < (xs.length : Int)) : (pyGet xs i).isSome = true := by
  simp only [pyGet]
  rw [if_neg (show ¬ i < 0 by omega),
      if_pos (show 0 ≤ i ∧ i < (xs.length : Int) from ⟨h0, h1⟩),
      List.get?_eq_get (show i.toNat < xs.length by omega)]
  rfl

theorem pyGet_neg_wraps {A : Type} (xs : List A) (i : Int)
    (hge : -(xs.length : Int) ≤ i) (hlt : i < 0) :
    pyGet xs i = pyGet xs ((xs.length : Int) + i) := by
  simp only [pyGet]
  rw [if_pos hlt, if_neg (show ¬ (xs.length : Int) + i < 0 by omega)]

/-- C8 counterexample: index -1 is outside [0, length()) yet `__getitem__`
returns the wrapped-around last element instead of failing (Python negative
indexing). -/
theorem getitem_negative_index_wraps :
    ¬ (0 ≤ (-1 : Int) ∧
        (-1 : Int) < ((SAMRamanDataset.mk [(10 : Nat), 20] [(0 : Nat), 1]).len : Int))
    ∧ (SAMRamanDataset.mk [(10 : Nat), 20] [(0 : Nat), 1]).getitem (-1)
        = some (20, 1) := by
  constructor
  · decide
  · rfl

/-- C8 amended: for an aligned dataset, `__getitem__` fails exactly outside
[-length(), length()); an index in [-length(), 0) returns the wrapped-around
element at length() + index, and an index in [0, length()) succeeds. -/
theorem getitem_bounds_amended {A B : Type} (ds : SAMRamanDataset A B)
    (h : ds.spectral_data.length = ds.labels.length) (idx : Int) :
    ((idx < -(ds.len : Int) ∨ (ds.len : Int) ≤ idx) → ds.getitem idx = none)
    ∧ (-(ds.len : Int) ≤ idx → idx < 0 →
        ds.getitem idx = ds.getitem ((ds.len : Int) + idx))
    ∧ (0 ≤ idx → idx < (ds.len : Int) → (ds.getitem idx).isSome = true) := by
  simp only [SAMRamanDataset.len] at *
  refine ⟨?_, ?_, ?_⟩
  · intro hout
    have hld : pyGet ds.labels idx = none := pyGet_eq_none _ _ hout
    cases hd : pyGet ds.spectral_data idx with
    | none => simp [SAMRamanDataset.getitem, hd, hld]
    | some d => simp [SAMRamanDataset.getitem, hd, hld]
  · intro hge hlt
    have h1 : pyGet ds.spectral_data idx =
        pyGet ds.spectral_data ((ds.labels.length : Int) + idx) := by
      have := pyGet_neg_wraps ds.spectral_data idx (by omega) hlt
      rwa [h] at this
    have h2 : pyGet ds.labels idx =
        pyGet ds.labels ((ds.labels.length : Int) + idx) :=
      pyGet_neg_wraps ds.labels idx hge hlt
    simp only [SAMRamanDataset.getitem, h1, h2]
  · intro h0 h1
    obtain ⟨d, hd⟩ := Option.isSome_iff_exists.mp
      (pyGet_isSome ds.spectral_data idx h0 (by omega))
    obtain ⟨l, hl⟩ := Option.isSome_iff_exists.mp
      (pyGet_isSome ds.labels idx h0 h1)
    simp [SAMRamanDataset.getitem, hd, hl]

/-- Witness for C8 amended: index 5 on a length-2 dataset fails. -/
theorem getitem_bounds_amended_witness :
    (SAMRamanDataset.mk [(10 : Nat), 20] [(0 : Nat), 1]).getitem 5 = none :=
  (getitem_bounds_amended (SAMRamanDataset.mk [(10 : Nat), 20] [(0 : Nat), 1])
    rfl 5).1 (by decide)

/-- C2 (evaluation at the failing input): with two pre-split groups, the data
fields of every partition keep only the last group (the source assigns
`set["data"] = ...` each iteration) while the label fields accumulate both
groups, so the partitions end misaligned; the samples of the first group are
not concatenated into any partition. -/
theorem presplit_data_overwritten :
    SAMRamanPre trivialSplitter [[(100 : Nat)], [200]] [[(0 : Nat)], [1]]
        [[(10 : Nat)], [20]] [[(0 : Nat)], [1]]
      = some ⟨[200], [0, 1], [], [], [20], [0, 1]⟩
    ∧ ([20] : List Nat).length ≠ ([0, 1] : List Nat).length := by
  constructor
  · rfl
  · decide

theorem pyZip3_mem {A B C : Type} :
    ∀ (as : List A) (bs : List B) (cs : List C), ∀ g ∈ pyZip3 as bs cs, g.2.1 ∈ bs := by
  intro as
  induction as with
  | nil =>
    intro bs cs g hg
    simp [pyZip3] at hg
  | cons a at' ih =>
    intro bs cs g hg
    cases bs with
    | nil => simp [pyZip3] at hg
    | cons b bt =>
      cases cs with
      | nil => simp [pyZip3] at hg
      | cons c ct =>
        rw [show pyZip3 (a :: at') (b :: bt) (c :: ct) =
            (a, b, c) :: pyZip3 at' bt ct from rfl] at hg
        rcases List.mem_cons.mp hg with rfl | hg2
        · exact List.mem_cons_self b bt
        · exact List.mem_cons_of_mem b (ih bt ct g hg2)

theorem pyZip3_length {A B C : Type} :
    ∀ (as : List A) (bs : List B) (cs : List C),
      (pyZip3 as bs cs).length = min as.length (min bs.length cs.length) := by
  intro as
  induction as with
  | nil => intro bs cs; simp [pyZip3]
  | cons a t ih =>
    intro bs cs
    cases bs with
    | nil => simp [pyZip3]
    | cons b bt =>
      cases cs with
      | nil => simp [pyZip3]
      | cons c ct =>
        rw [show pyZip3 (a :: t) (b :: bt) (c :: ct) =
            (a, b, c) :: pyZip3 t bt ct from rfl]
        simp only [List.length_cons, ih bt ct]
        omega

theorem processLabels_isSome {A L : Type} [DecidableEq L] (m : List (L × Nat))
    (oracle : Nat → Nat → List Nat) (spectra : List A) (labels : List L) (p : Nat) :
    ∀ (us : List L), (∀ l ∈ us, (labelMapLookup m l).isSome = true) →
      ∀ k, ∃ sj, processLabels m oracle spectra labels p us k = some sj := by
  intro us
  induction us with
  | nil =>
    intro _ k
    exact ⟨(emptySplits, k), rfl⟩
  | cons l rest ih =>
    intro hall k
    obtain ⟨code, hcode⟩ :=
      Option.isSome_iff_exists.mp (hall l (List.mem_cons_self l rest))
    obtain ⟨⟨t, j⟩, hrec⟩ := ih (fun x hx => hall x (List.mem_cons_of_mem l hx)) (k + 1)
    refine ⟨(appendSplits (processLabelGroup (maskFilter spectra labels l) code p
      (oracle k ((maskFilter spectra labels l).length / p))) t, j), ?_⟩
    simp only [processLabels, hcode, hrec]

theorem genSplits_isSome {A L : Type} [LinearOrder L] (m : List (L × Nat))
    (oracle : Nat → Nat → List Nat) :
    ∀ (cfg : List (List A × List L × Nat)),
      (∀ g ∈ cfg, ∀ l ∈ npUnique g.2.1, (labelMapLookup m l).isSome = true) →
      ∀ k, ∃ sj, genSplits m oracle cfg k = some sj := by
  intro cfg
  induction cfg with
  | nil =>
    intro _ k
    exact ⟨(emptySplits, k), rfl⟩
  | cons g rest ih =>
    intro hall k
    obtain ⟨spectra, labels, p⟩ := g
    obtain ⟨⟨s₀, j₀⟩, hps⟩ := processLabels_isSome m oracle spectra labels p
      (npUnique labels)
      (fun l hl => hall (spectra, labels, p) (List.mem_cons_self _ _) l hl) k
    obtain ⟨⟨t, j₂⟩, hrest⟩ :=
      ih (fun x hx l hl => hall x (List.mem_cons_of_mem _ hx) l hl) j₀
    exact ⟨(appendSplits s₀ t, j₂), by simp only [genSplits, hps, hrest]⟩

/-- Generation-mode construction never raises: every label encountered in
the zipped groups occurs in the concatenated label arrays the vocabulary was
built from, so every dict lookup succeeds. -/
theorem SAMRamanGen_always_some {A L : Type} [LinearOrder L]
    (oracle : Nat → Nat → List Nat) (sp : List (List A)) (la : List (List L))
    (iv : List Nat) : (SAMRamanGen oracle sp la iv).isSome = true := by
  have hcov : ∀ g ∈ pyZip3 sp la iv, ∀ l ∈ npUnique g.2.1,
      (labelMapLookup (getLabelMapping la.flatten) l).isSome = true := by
    intro g hg l hl
    have h1 : l ∈ g.2.1 := mem_npUnique.mp hl
    have h2 : g.2.1 ∈ la := pyZip3_mem sp la iv g hg
    have h3 : l ∈ la.flatten := List.mem_flatten.mpr ⟨g.2.1, h2, h1⟩
    obtain ⟨c, hc, _⟩ := lookup_enumMap 0 (npUnique la.flatten)
      (npUnique_nodup la.flatten) l (mem_npUnique.mpr h3)
    show (labelMapLookup (enumMap 0 (npUnique la.flatten)) l).isSome = true
    rw [hc]
    rfl
  obtain ⟨sj, hsj⟩ := genSplits_isSome (getLabelMapping la.flatten) oracle
    (pyZip3 sp la iv) hcov 0
  simp only [SAMRamanGen, hsj]
  rfl

/-- C3 counterexample: a configuration whose aligned lists have unequal
lengths (two patient intervals, one spectral source, one label source)
constructs successfully instead of failing with a configuration error. -/
theorem config_mismatch_no_error :
    ([2, 3] : List Nat).length ≠ ([[(0 : Nat), 0]] : List (List Nat)).length
    ∧ (SAMRamanGen (fun _ n => List.range n) [[(10 : Nat), 20]] [[(0 : Nat), 0]]
        [2, 3]).isSome = true := by
  constructor
  · decide
  · rfl

/-- C3 amended: unequal aligned configuration lists are never detected:
Python zip silently truncates the configuration to the shortest list and
generation-mode construction always succeeds. -/
theorem config_mismatch_truncates {A L : Type} [LinearOrder L]
    (oracle : Nat → Nat → List Nat) (sp : List (List A)) (la : List (List L))
    (iv : List Nat) :
    (SAMRamanGen oracle sp la iv).isSome = true
    ∧ (pyZip3 sp la iv).length = min sp.length (min la.length iv.length) :=
  ⟨SAMRamanGen_always_some oracle sp la iv, pyZip3_length sp la iv⟩
